import Mathlib

/-!
Verification of the freshservice-rag retrieval pipeline.

Shallow embedding of the Python sources:
  * `ingest.py`  — `chunk_text`, `build_index`
  * `rag.py`     — `retrieve`, `answer_query` (k-NN search over cosine distances,
                   snippet assembly, mean-similarity confidence)
  * `app.py`     — the `ask` endpoint handler
  * `scraper.py` — the `scrape` crawl loop

Strings are modelled as `List Char` where Python slices by character position;
floating-point similarity arithmetic is modelled over `ℚ`; Python exceptions are
modelled with `Option` (`none` = the call raises).
-/

/-- `CHUNK_SIZE = 500` from `ingest.py`. -/
def CHUNK_SIZE : Nat := 500

/-- `chunk_text(text, max_length)` from `ingest.py`:
`[text[i:i+max_length] for i in range(0, len(text), max_length)]`.
`range(0, len(text), max_length)` has `⌈len(text)/max_length⌉` elements, the k-th
being `i = k * max_length`, and `text[i:i+max_length]` is `(text.drop i).take max_length`. -/
def chunk_text (text : List Char) (max_length : Nat) : List (List Char) :=
  (List.range ((text.length + max_length - 1) / max_length)).map
    (fun k => (text.drop (k * max_length)).take max_length)

/-- Recursive characterisation of `chunk_text`, used for the proofs. -/
def chunkRec (text : List Char) (max_length : Nat) : List (List Char) :=
  if h : text = [] ∨ max_length = 0 then []
  else
    text.take max_length :: chunkRec (text.drop max_length) max_length
termination_by text.length
decreasing_by
  simp only [not_or] at h
  have h1 : 0 < text.length := List.length_pos.mpr h.1
  have h2 : 0 < max_length := Nat.pos_of_ne_zero h.2
  simpa [List.length_drop] using Nat.sub_lt h1 h2

theorem chunkRec_nil (L : Nat) : chunkRec [] L = [] := by
  rw [chunkRec]; simp

theorem chunk_text_eq_chunkRec (text : List Char) (L : Nat) (hL : 0 < L) :
    chunk_text text L = chunkRec text L := by
  generalize hn : text.length = n
  induction n using Nat.strong_induction_on generalizing text with
  | _ n ih =>
    by_cases hnil : text = []
    · subst hnil
      simp only [List.length_nil] at hn
      subst hn
      rw [chunkRec_nil]
      have h0 : (0 + L - 1) / L = 0 := Nat.div_eq_of_lt (by omega)
      have h1 : (L - 1) / L = 0 := Nat.div_eq_of_lt (by omega)
      simp [chunk_text, h0, h1]
    · have hpos : 0 < text.length := List.length_pos.mpr hnil
      rw [chunkRec]
      rw [dif_neg (by push_neg; exact ⟨hnil, Nat.pos_iff_ne_zero.mp hL⟩)]
      have hcount : (text.length + L - 1) / L = (text.length - 1) / L + 1 := by
        have : text.length + L - 1 = (text.length - 1) + L := by omega
        rw [this, Nat.add_div_right _ hL]
      have hcount' : ((text.drop L).length + L - 1) / L = (text.length - 1) / L := by
        rw [List.length_drop]
        by_cases hle : text.length ≤ L
        · have e1 : text.length - L = 0 := by omega
          rw [e1]
          have : (0 + L - 1) / L = 0 := Nat.div_eq_of_lt (by omega)
          rw [this]
          exact (Nat.div_eq_of_lt (by omega)).symm
        · have : text.length - L + L - 1 = text.length - 1 := by omega
          rw [this]
      unfold chunk_text
      rw [hcount, List.range_succ_eq_map, List.map_cons, List.map_map]
      congr 1
      · simp
      · have ihd := ih (text.drop L).length
          (by rw [List.length_drop]; omega) (text.drop L) rfl
        rw [← ihd]
        unfold chunk_text
        rw [hcount']
        apply List.map_congr_left
        intro k _
        simp only [Function.comp_apply]
        rw [List.drop_drop]
        congr 2
        rw [Nat.succ_mul]
        ring

theorem chunkRec_join (text : List Char) (L : Nat) :
    (chunkRec text L).flatten = text ∨ L = 0 := by
  by_cases hL : L = 0
  · right; exact hL
  left
  generalize hn : text.length = n
  induction n using Nat.strong_induction_on generalizing text with
  | _ n ih =>
    by_cases hnil : text = []
    · subst hnil; rw [chunkRec_nil]; simp
    · rw [chunkRec, dif_neg (by push_neg; exact ⟨hnil, hL⟩)]
      have hpos : 0 < text.length := List.length_pos.mpr hnil
      have : (chunkRec (text.drop L) L).flatten = text.drop L := by
        apply ih (text.drop L).length _ (text.drop L) rfl
        rw [List.length_drop]
        omega
      simp only [List.flatten_cons, this]
      exact List.take_append_drop L text

theorem chunkRec_length_le (text : List Char) (L : Nat) :
    ∀ c ∈ chunkRec text L, c.length ≤ L := by
  generalize hn : text.length = n
  induction n using Nat.strong_induction_on generalizing text with
  | _ n ih =>
    intro c hc
    by_cases h : text = [] ∨ L = 0
    · rw [chunkRec, dif_pos h] at hc; simp at hc
    · rw [chunkRec, dif_neg h] at hc
      push_neg at h
      have hpos : 0 < text.length := List.length_pos.mpr h.1
      have hLpos : 0 < L := Nat.pos_of_ne_zero h.2
      rcases List.mem_cons.mp hc with hc' | hc'
      · subst hc'
        simpa [List.length_take] using Nat.min_le_left L text.length
      · exact ih (text.drop L).length
          (by rw [List.length_drop]; omega)
          (text.drop L) rfl c hc'

theorem chunkRec_length_eq (text : List Char) (L : Nat) :
    ∀ i, i + 1 < (chunkRec text L).length → ((chunkRec text L).getD i []).length = L := by
  generalize hn : text.length = n
  induction n using Nat.strong_induction_on generalizing text with
  | _ n ih =>
    intro i hi
    by_cases h : text = [] ∨ L = 0
    · rw [chunkRec, dif_pos h] at hi; simp at hi
    · push_neg at h
      rw [chunkRec, dif_neg (by push_neg; exact h)] at hi ⊢
      have hL : 0 < L := Nat.pos_of_ne_zero h.2
      have hpos : 0 < text.length := List.length_pos.mpr h.1
      have hdrop : (text.drop L).length < n := by
        rw [List.length_drop]; omega
      cases i with
      | zero =>
        -- the tail is nonempty, so `text` has more than `L` characters
        simp only [List.length_cons] at hi
        have htail : chunkRec (text.drop L) L ≠ [] := by
          intro hemp
          rw [hemp] at hi
          simp at hi
        have hgt : L < text.length := by
          by_contra hle
          push_neg at hle
          have : text.drop L = [] := List.drop_eq_nil_of_le hle
          rw [this, chunkRec_nil] at htail
          exact htail rfl
        simpa [List.length_take] using Nat.min_eq_left (Nat.le_of_lt hgt)
      | succ j =>
        simp only [List.length_cons, Nat.succ_lt_succ_iff] at hi
        simpa using ih (text.drop L).length hdrop (text.drop L) rfl j hi

/-- A crawled document as read from `data/docs.json` by `build_index` (`ingest.py`):
`content = doc.get("content", "")`, `title = doc.get("title", "")`,
`url = doc.get("url", "")`.  Content is a list of characters (Python slices
strings by character position). -/
structure Doc where
  url : String
  title : String
  content : List Char
deriving Repr, DecidableEq, Inhabited

/-- One entry of the metadata array persisted by `build_index` (`ingest.py`):
`{"doc_id": idx, "chunk_id": cid, "title": title, "url": url, "text_excerpt": chunk[:400]}`. -/
structure ChunkMeta where
  doc_id : Nat
  chunk_id : Nat
  title : String
  url : String
  text_excerpt : List Char
deriving Repr, DecidableEq, Inhabited

/-- The chunking/metadata loop of `build_index` (`ingest.py`):
for `idx, doc in enumerate(docs)`, documents with empty content are skipped
(`if not content: continue`; `enumerate` still counts them), and for
`cid, chunk in enumerate(chunk_text(content))` the chunk is appended to
`text_chunks` while the parallel metadata record is appended to `metas`.
The two parallel appends are modelled as one `flatMap` producing the
(chunk, metadata) pairs in the same left-to-right order. -/
def build_index_pairs (docs : List Doc) : List (List Char × ChunkMeta) :=
  docs.enum.flatMap (fun p =>
    if p.2.content = [] then []
    else (chunk_text p.2.content CHUNK_SIZE).enum.map (fun c =>
      (c.2, { doc_id := p.1, chunk_id := c.1, title := p.2.title, url := p.2.url,
              text_excerpt := c.2.take 400 })))

/-- `build_index` (`ingest.py`) returns `(text_chunks, metas)`; the embedding
matrix written to `data/embeddings.npy` is `model.encode(text_chunks)` and the
metadata array written to `data/metadata.json` is `metas`. -/
def build_index (docs : List Doc) : List (List Char) × List ChunkMeta :=
  ((build_index_pairs docs).map Prod.fst, (build_index_pairs docs).map Prod.snd)

/-- The persisted embedding matrix: `model.encode(text_chunks)` produces one
row per input chunk, in input order; the encoder itself is an arbitrary
function `enc` into an arbitrary vector type. -/
def embeddingMatrix {V : Type} (enc : List Char → V) (docs : List Doc) : List V :=
  (build_index docs).1.map enc

/-- `metaDescribes docs chunk m`: the metadata record `m` describes exactly the
chunk `chunk` of the chunk list of document number `m.doc_id` of `docs`, with
the ordering identifiers and excerpt required by `build_index`. -/
def metaDescribes (docs : List Doc) (chunk : List Char) (m : ChunkMeta) : Prop :=
  ∃ hd : m.doc_id < docs.length,
    m.title = (docs.get ⟨m.doc_id, hd⟩).title ∧
    m.url = (docs.get ⟨m.doc_id, hd⟩).url ∧
    ∃ hc : m.chunk_id < (chunk_text (docs.get ⟨m.doc_id, hd⟩).content CHUNK_SIZE).length,
      chunk = (chunk_text (docs.get ⟨m.doc_id, hd⟩).content CHUNK_SIZE).get ⟨m.chunk_id, hc⟩ ∧
      m.text_excerpt = chunk.take 400

theorem build_index_pairs_mem (docs : List Doc) :
    ∀ p ∈ build_index_pairs docs, metaDescribes docs p.1 p.2 := by
  intro p hp
  unfold build_index_pairs at hp
  rw [List.mem_flatMap] at hp
  obtain ⟨q, hq, hpq⟩ := hp
  rw [List.mem_enum_iff_getElem?] at hq
  obtain ⟨hqlt, hqget⟩ := List.getElem?_eq_some_iff.mp hq
  by_cases hemp : q.2.content = []
  · rw [if_pos hemp] at hpq
    simp at hpq
  · rw [if_neg hemp, List.mem_map] at hpq
    obtain ⟨c, hc, rfl⟩ := hpq
    rw [List.mem_enum_iff_getElem?] at hc
    obtain ⟨hclt, hcget⟩ := List.getElem?_eq_some_iff.mp hc
    refine ⟨hqlt, ?_, ?_, ?_⟩
    · simp [List.get_eq_getElem, hqget]
    · simp [List.get_eq_getElem, hqget]
    · refine ⟨by simpa [List.get_eq_getElem, hqget] using hclt, ?_, rfl⟩
      simp [List.get_eq_getElem, hqget, hcget]

/-- C2: `chunk_text` with `max_length = CHUNK_SIZE = 500` produces chunks whose
concatenation equals the input text (so the total length equals the document
content length), every chunk has length at most 500, and every chunk except
possibly the last has length exactly 500. -/
theorem C2_chunk_text_partition (text : List Char) :
    (chunk_text text CHUNK_SIZE).flatten = text
    ∧ (∀ c ∈ chunk_text text CHUNK_SIZE, c.length ≤ CHUNK_SIZE)
    ∧ (∀ i, i + 1 < (chunk_text text CHUNK_SIZE).length →
        ((chunk_text text CHUNK_SIZE).getD i []).length = CHUNK_SIZE) := by
  have hL : 0 < CHUNK_SIZE := by decide
  rw [chunk_text_eq_chunkRec text CHUNK_SIZE hL]
  refine ⟨?_, chunkRec_length_le text CHUNK_SIZE, chunkRec_length_eq text CHUNK_SIZE⟩
  rcases chunkRec_join text CHUNK_SIZE with h | h
  · exact h
  · exact absurd h (by decide)

set_option maxRecDepth 10000 in
/-- Witness for C2 at a concrete 1001-character text (three chunks). -/
theorem C2_chunk_text_partition_witness :
    (chunk_text (List.replicate 1001 'a') CHUNK_SIZE).flatten = List.replicate 1001 'a'
    ∧ ((chunk_text (List.replicate 1001 'a') CHUNK_SIZE).getD 0 []).length = CHUNK_SIZE :=
  ⟨(C2_chunk_text_partition (List.replicate 1001 'a')).1,
   (C2_chunk_text_partition (List.replicate 1001 'a')).2.2 0 (by decide)⟩

/-- C1: after any run of `build_index`, the persisted metadata array has exactly
as many entries as the embedding matrix has rows, and for every index `i` the
metadata entry at position `i` describes the chunk whose embedding is row `i`:
row `i` is the encoding of chunk `i`, and the entry carries that chunk's
`doc_id`/`chunk_id` position in the encoded chunk list, its document's title
and url, and the chunk's first 400 characters as `text_excerpt`. -/
theorem C1_metadata_embedding_alignment {V : Type} (enc : List Char → V) (docs : List Doc) :
    (build_index docs).2.length = (embeddingMatrix enc docs).length
    ∧ ∀ i (hm : i < (build_index docs).2.length) (hc : i < (build_index docs).1.length)
        (he : i < (embeddingMatrix enc docs).length),
        (embeddingMatrix enc docs).get ⟨i, he⟩ = enc ((build_index docs).1.get ⟨i, hc⟩)
        ∧ metaDescribes docs ((build_index docs).1.get ⟨i, hc⟩)
            ((build_index docs).2.get ⟨i, hm⟩) := by
  constructor
  · simp [build_index, embeddingMatrix]
  · intro i hm hc he
    have hp : i < (build_index_pairs docs).length := by
      simpa [build_index] using hm
    constructor
    · simp [embeddingMatrix, List.get_eq_getElem]
    · have h1 : (build_index docs).1.get ⟨i, hc⟩ = ((build_index_pairs docs).get ⟨i, hp⟩).1 := by
        simp [build_index, List.get_eq_getElem]
      have h2 : (build_index docs).2.get ⟨i, hm⟩ = ((build_index_pairs docs).get ⟨i, hp⟩).2 := by
        simp [build_index, List.get_eq_getElem]
      rw [h1, h2]
      exact build_index_pairs_mem docs _ (List.get_mem _ _ _)

/-- Concrete document list used by the C1 witness. -/
def mdocs0 : List Doc := [{ url := "u", title := "t", content := ['a', 'b', 'c'] }]

/-- Witness for C1 at one concrete document and the `List.length` encoder. -/
theorem C1_metadata_embedding_alignment_witness :
    (build_index mdocs0).2.length = (embeddingMatrix List.length mdocs0).length
    ∧ (embeddingMatrix List.length mdocs0).get ⟨0, by decide⟩
        = List.length ((build_index mdocs0).1.get ⟨0, by decide⟩)
    ∧ metaDescribes mdocs0 ((build_index mdocs0).1.get ⟨0, by decide⟩)
        ((build_index mdocs0).2.get ⟨0, by decide⟩) :=
  ⟨(C1_metadata_embedding_alignment List.length mdocs0).1,
   ((C1_metadata_embedding_alignment List.length mdocs0).2 0 (by decide) (by decide)
      (by decide)).1,
   ((C1_metadata_embedding_alignment List.length mdocs0).2 0 (by decide) (by decide)
      (by decide)).2⟩

/-- Ordering used by the k-NN search: (distance, row-index) pairs compared by
distance. -/
def distLE (a b : ℚ × Nat) : Prop := a.1 ≤ b.1

instance : DecidableRel distLE := fun a b => inferInstanceAs (Decidable (a.1 ≤ b.1))

instance : IsTotal (ℚ × Nat) distLE := ⟨fun a b => le_total a.1 b.1⟩

instance : IsTrans (ℚ × Nat) distLE := ⟨fun _ _ _ h1 h2 => le_trans h1 h2⟩

/-- `sklearn.neighbors.NearestNeighbors.kneighbors` (brute force, `metric="cosine"`)
as called by `retrieve` in `rag.py`: given the cosine distance from the query
embedding to each row of the fitted matrix, it returns the `n_neighbors`
smallest (distance, row-index) pairs in order of increasing distance.
sklearn raises a `ValueError` unless `1 ≤ n_neighbors ≤ n_samples_fit`;
the raise is modelled by `none`. -/
def kneighbors (dists : List ℚ) (n_neighbors : Nat) : Option (List (ℚ × Nat)) :=
  if 1 ≤ n_neighbors ∧ n_neighbors ≤ dists.length then
    some ((List.insertionSort distLE
      ((List.range dists.length).map (fun i => (dists.getD i 0, i)))).take n_neighbors)
  else none

/-- `retrieve(query, top_k)` from `rag.py`: run `nn.kneighbors` on the query
embedding and, for each returned pair `(d, idx)`, produce
`{"meta": metas[idx], "similarity": 1.0 - d}` in the returned order.
The query embedding enters only through `dists`, the list of cosine distances
from the query embedding to each embedding-matrix row. -/
def retrieve (metas : List ChunkMeta) (dists : List ℚ) (top_k : Nat) :
    Option (List (ChunkMeta × ℚ)) :=
  (kneighbors dists top_k).map (fun pairs =>
    pairs.map (fun p => (metas.getD p.2 default, 1 - p.1)))

theorem kneighbors_some (dists : List ℚ) (k : Nat) (pairs : List (ℚ × Nat))
    (h : kneighbors dists k = some pairs) :
    1 ≤ k ∧ k ≤ dists.length
    ∧ pairs = (List.insertionSort distLE
        ((List.range dists.length).map (fun i => (dists.getD i 0, i)))).take k := by
  unfold kneighbors at h
  by_cases hc : 1 ≤ k ∧ k ≤ dists.length
  · rw [if_pos hc] at h
    exact ⟨hc.1, hc.2, (Option.some_inj.mp h).symm⟩
  · rw [if_neg hc] at h
    exact absurd h (by simp)

theorem kneighbors_mem (dists : List ℚ) (k : Nat) (pairs : List (ℚ × Nat))
    (h : kneighbors dists k = some pairs) :
    ∀ p ∈ pairs, p.2 < dists.length ∧ p.1 = dists.getD p.2 0 := by
  intro p hp
  obtain ⟨-, -, rfl⟩ := kneighbors_some dists k pairs h
  have hmem : p ∈ List.insertionSort distLE
      ((List.range dists.length).map (fun i => (dists.getD i 0, i))) :=
    (List.take_sublist _ _).mem hp
  rw [List.mem_insertionSort, List.mem_map] at hmem
  obtain ⟨i, hi, rfl⟩ := hmem
  exact ⟨List.mem_range.mp hi, rfl⟩

/-- Counterexample to C3 as stated: with a single indexed chunk and `top_k = 2`,
`retrieve` raises (sklearn's `kneighbors` rejects `n_neighbors > n_samples_fit`
with a `ValueError`) instead of returning `min 2 1 = 1` results. -/
theorem C3_counterexample_retrieve_raises :
    retrieve [default] [(0 : ℚ)] 2 = none ∧ min 2 1 = 1 := by
  constructor
  · rfl
  · rfl

/-- C3 (amended): whenever `1 ≤ k ≤ number_of_chunks`, `retrieve(query, top_k=k)`
returns exactly `k` results, sorted by non-increasing similarity (equivalently,
increasing cosine distance); when `k` exceeds the number of chunks the
underlying `kneighbors` call raises instead of returning `min k n` results. -/
theorem C3_retrieve_count_sorted (metas : List ChunkMeta) (dists : List ℚ) (k : Nat)
    (h1 : 1 ≤ k) (h2 : k ≤ dists.length) :
    (retrieve metas dists k).isSome = true
    ∧ ∀ res, retrieve metas dists k = some res →
        res.length = k ∧ res.Sorted (fun a b => b.2 ≤ a.2) := by
  have hkn : kneighbors dists k = some ((List.insertionSort distLE
      ((List.range dists.length).map (fun i => (dists.getD i 0, i)))).take k) := by
    unfold kneighbors
    rw [if_pos ⟨h1, h2⟩]
  constructor
  · simp [retrieve, hkn]
  · intro res hres
    simp only [retrieve, hkn, Option.map_some', Option.some_inj] at hres
    subst hres
    constructor
    · rw [List.length_map, List.length_take, List.length_insertionSort,
        List.length_map, List.length_range]
      omega
    · have hsorted : List.Pairwise distLE (List.insertionSort distLE
          ((List.range dists.length).map (fun i => (dists.getD i 0, i)))) :=
        List.sorted_insertionSort distLE _
      have htake := hsorted.sublist (List.take_sublist k _)
      unfold List.Sorted
      rw [List.pairwise_map]
      exact htake.imp (fun hab => by
        simp only
        unfold distLE at hab
        linarith)

/-- Concrete metadata list and distance list for the retriever witnesses. -/
def rmetas0 : List ChunkMeta := [default, default]

/-- Concrete cosine-distance list for the retriever witnesses. -/
def rdists0 : List ℚ := [1, 0]

/-- Witness for C3 (amended) at two indexed chunks and `top_k = 2`. -/
theorem C3_retrieve_count_sorted_witness :
    (retrieve rmetas0 rdists0 2).isSome = true
    ∧ ((retrieve rmetas0 rdists0 2).getD []).length = 2
    ∧ ((retrieve rmetas0 rdists0 2).getD []).Sorted (fun a b => b.2 ≤ a.2) := by
  have h := C3_retrieve_count_sorted rmetas0 rdists0 2 (by decide) (by decide)
  obtain ⟨res, hres⟩ := Option.isSome_iff_exists.mp h.1
  have h2 := h.2 res hres
  rw [hres]
  exact ⟨rfl, by simpa using h2.1, by simpa using h2.2⟩

/-- C4: every similarity value returned by `retrieve` equals 1 minus the cosine
distance of the corresponding embedding row (the paired metadata entry being
that same row's); given cosine distances in [0, 2], every returned similarity
lies in the closed range [-1, 1]. -/
theorem C4_similarity_one_minus_distance (metas : List ChunkMeta) (dists : List ℚ)
    (k : Nat) (res : List (ChunkMeta × ℚ)) (hres : retrieve metas dists k = some res)
    (r : ChunkMeta × ℚ) (hr : r ∈ res) :
    (∃ i, i < dists.length ∧ r.2 = 1 - dists.getD i 0 ∧ r.1 = metas.getD i default)
    ∧ ((∀ d ∈ dists, 0 ≤ d ∧ d ≤ 2) → -1 ≤ r.2 ∧ r.2 ≤ 1) := by
  unfold retrieve at hres
  cases hkn : kneighbors dists k with
  | none => rw [hkn] at hres; simp at hres
  | some pairs =>
    rw [hkn] at hres
    simp only [Option.map_some', Option.some_inj] at hres
    subst hres
    rw [List.mem_map] at hr
    obtain ⟨p, hp, rfl⟩ := hr
    obtain ⟨hlt, hd⟩ := kneighbors_mem dists k pairs hkn p hp
    have hmem : dists.getD p.2 0 ∈ dists := by
      rw [List.getD_eq_getElem _ _ hlt]
      exact List.getElem_mem hlt
    constructor
    · exact ⟨p.2, hlt, by simp [hd], rfl⟩
    · intro hb
      have hbd := hb _ hmem
      constructor
      · simp only
        rw [hd]
        linarith [hbd.2]
      · simp only
        rw [hd]
        linarith [hbd.1]

/-- Concrete cosine-distance list for the C4 witness. -/
def rdists1 : List ℚ := [1/2]

/-- Witness for C4 at one chunk with cosine distance 1/2. -/
theorem C4_similarity_witness :
    (∃ i, i < rdists1.length
        ∧ (((default : ChunkMeta), 1 - (1 : ℚ)/2).2 = 1 - rdists1.getD i 0)
        ∧ (((default : ChunkMeta), 1 - (1 : ℚ)/2).1
            = ([default] : List ChunkMeta).getD i default))
    ∧ (-1 ≤ ((default : ChunkMeta), 1 - (1 : ℚ)/2).2
        ∧ ((default : ChunkMeta), 1 - (1 : ℚ)/2).2 ≤ 1) := by
  have h := C4_similarity_one_minus_distance [default] rdists1 1 [(default, 1 - 1/2)] rfl
    (default, 1 - 1/2) (by simp)
  refine ⟨h.1, h.2 ?_⟩
  intro d hd
  simp only [rdists1, List.mem_singleton] at hd
  subst hd
  norm_num

/-- One citation of the response of `answer_query` (`rag.py`):
`{"title": ..., "url": ..., "similarity": ...}`. -/
structure Citation where
  title : String
  url : String
  similarity : ℚ
deriving Repr, DecidableEq, Inhabited

/-- The value returned by `answer_query` (`rag.py`):
`{"answer": content, "citations": citations, "confidence": float(avg_sim)}`. -/
structure AnswerResponse where
  answer : String
  citations : List Citation
  confidence : ℚ
deriving Repr, DecidableEq, Inhabited

/-- The snippet block built by `answer_query` (`rag.py`) for one retrieval
result: title, url, excerpt and similarity; the float formatting
`f"{r['similarity']:.4f}"` is abstracted as the formatting function `fmt`. -/
def snippetBlock (fmt : ℚ → String) (r : ChunkMeta × ℚ) : String :=
  "---\nTitle: " ++ r.1.title ++ "\nURL: " ++ r.1.url ++ "\nExcerpt: "
    ++ String.mk r.1.text_excerpt ++ "\nSimilarity: " ++ fmt r.2

/-- `context = "\n\n".join(snippets)` in `answer_query` (`rag.py`). -/
def contextOf (fmt : ℚ → String) (results : List (ChunkMeta × ℚ)) : String :=
  String.intercalate "\n\n" (results.map (snippetBlock fmt))

/-- `PROMPT_TEMPLATE.format(snippets=context, question=question)` from `rag.py`:
the fixed instructional template with its two placeholders substituted. -/
def promptOf (context question : String) : String :=
  "\nYou are an assistant that extracts accurate information ONLY from Freshservice API documentation.\n\nTask:\n- Answer the user’s question using ONLY the provided documentation snippets.\n- ALWAYS give the output in the following format:\n\n---\ncurl command:\n<the full working curl command here>\n\nExplanation:\n<step by step explanation of each parameter, header, and endpoint>\n\nSources:\n- Title: <doc title>, URL: <doc url>\n- Title: <doc title>, URL: <doc url>\n\nConfidence: <float between 0 and 1>\n---\n\nDocumentation snippets:\n"
    ++ context ++ "\n\nUser Question:\n" ++ question ++ "\n"

/-- `avg_sim = sum([r["similarity"] for r in results]) / max(1, len(results))`
from `answer_query` (`rag.py`). -/
def avg_sim (results : List (ChunkMeta × ℚ)) : ℚ :=
  (results.map (fun r => r.2)).sum / ((max 1 results.length : ℕ) : ℚ)

/-- `answer_query(question, top_k)` from `rag.py`: retrieve the `top_k` nearest
chunks, build the snippet blocks, the joined context and the prompt; when an
OpenAI client is configured the answer is the client's completion text for the
prompt (the trailing `.strip()` is part of the abstract client), otherwise the
degraded-mode answer is the warning header followed by the concatenated
snippets.  Confidence is `avg_sim`; the citations pair each result's title and
url with its similarity.  A raise inside `retrieve` propagates (`none`). -/
def answer_query (openai_client : Option (String → String)) (fmt : ℚ → String)
    (metas : List ChunkMeta) (dists : List ℚ) (question : String) (top_k : Nat) :
    Option AnswerResponse :=
  (retrieve metas dists top_k).map (fun results =>
    let context := contextOf fmt results
    let prompt := promptOf context question
    let content := match openai_client with
      | some client => client prompt
      | none => "⚠️ OpenAI API key not found. Here are the retrieved snippets:\n\n" ++ context
    { answer := content
      citations := results.map (fun r =>
        { title := r.1.title, url := r.1.url, similarity := r.2 })
      confidence := avg_sim results })

/-- C6: when no completion client is configured, `answer_query` does not raise
(whenever retrieval itself succeeds); its answer is the warning marker followed
by the concatenated snippet blocks, and its confidence is still the mean of
the retrieved similarities. -/
theorem C6_degraded_mode (fmt : ℚ → String) (metas : List ChunkMeta) (dists : List ℚ)
    (question : String) (k : Nat) (h1 : 1 ≤ k) (h2 : k ≤ dists.length) :
    (answer_query none fmt metas dists question k).isSome = true
    ∧ ∀ results, retrieve metas dists k = some results →
        answer_query none fmt metas dists question k = some
          { answer := "⚠️ OpenAI API key not found. Here are the retrieved snippets:\n\n"
              ++ contextOf fmt results
            citations := results.map (fun r =>
              { title := r.1.title, url := r.1.url, similarity := r.2 })
            confidence := avg_sim results } := by
  constructor
  · have hkn : kneighbors dists k = some ((List.insertionSort distLE
        ((List.range dists.length).map (fun i => (dists.getD i 0, i)))).take k) := by
      unfold kneighbors
      rw [if_pos ⟨h1, h2⟩]
    simp [answer_query, retrieve, hkn]
  · intro results hres
    simp [answer_query, hres]

/-- Witness for C6 at one chunk with cosine distance 0. -/
theorem C6_degraded_mode_witness :
    (answer_query none (fun _ => "") [default] [(0 : ℚ)] "q" 1).isSome = true
    ∧ answer_query none (fun _ => "") [default] [(0 : ℚ)] "q" 1 = some
        { answer := "⚠️ OpenAI API key not found. Here are the retrieved snippets:\n\n"
            ++ contextOf (fun _ => "") [((default : ChunkMeta), (1 : ℚ) - 0)]
          citations := [((default : ChunkMeta), (1 : ℚ) - 0)].map (fun r =>
            { title := r.1.title, url := r.1.url, similarity := r.2 })
          confidence := avg_sim [((default : ChunkMeta), (1 : ℚ) - 0)] } := by
  have h := C6_degraded_mode (fun _ => "") [default] [(0 : ℚ)] "q" 1 (by decide) (by decide)
  exact ⟨h.1, h.2 [((default : ChunkMeta), (1 : ℚ) - 0)] rfl⟩

theorem retrieve_result_bounds (metas : List ChunkMeta) (dists : List ℚ) (k : Nat)
    (results : List (ChunkMeta × ℚ)) (hres : retrieve metas dists k = some results)
    (hb : ∀ d ∈ dists, 0 ≤ d ∧ d ≤ 2) :
    ∀ r ∈ results, -1 ≤ r.2 ∧ r.2 ≤ 1 := by
  intro r hr
  unfold retrieve at hres
  cases hkn : kneighbors dists k with
  | none => rw [hkn] at hres; simp at hres
  | some pairs =>
    rw [hkn] at hres
    simp only [Option.map_some', Option.some_inj] at hres
    subst hres
    rw [List.mem_map] at hr
    obtain ⟨p, hp, rfl⟩ := hr
    obtain ⟨hlt, hd⟩ := kneighbors_mem dists k pairs hkn p hp
    have hmem : dists.getD p.2 0 ∈ dists := by
      rw [List.getD_eq_getElem _ _ hlt]
      exact List.getElem_mem hlt
    have hbd := hb _ hmem
    constructor
    · simp only
      rw [hd]
      linarith [hbd.2]
    · simp only
      rw [hd]
      linarith [hbd.1]

/-- Counterexample to C7 as stated: with one chunk at cosine distance 2 (the
largest cosine distance), the confidence returned by `answer_query` is -1,
which is outside the claimed range 0..1. -/
theorem C7_counterexample_confidence_negative :
    Option.map AnswerResponse.confidence
        (answer_query none (fun _ => "") [default] [(2 : ℚ)] "q" 1) = some (-1)
    ∧ ¬ (0 ≤ (-1 : ℚ)) := by
  constructor
  · have hres : retrieve [default] [(2 : ℚ)] 1 = some [((default : ChunkMeta), 1 - 2)] := rfl
    rw [answer_query, hres]
    simp only [Option.map_some', Option.some_inj]
    show avg_sim [((default : ChunkMeta), 1 - 2)] = -1
    norm_num [avg_sim]
  · norm_num

/-- C7 (amended): the confidence returned by `answer_query` equals the
unweighted arithmetic mean of the similarities of the retrieved results (the
similarities carried by its citations), and is independent of the completion
client, of the similarity formatting and of the question fed into the prompt;
whenever all cosine distances lie in [0, 2] it lies in the closed range
[-1, 1] — it is NOT confined to 0..1: it is negative as soon as the mean
retrieved similarity is. -/
theorem C7_confidence_mean (client client' : Option (String → String))
    (fmt fmt' : ℚ → String) (metas : List ChunkMeta) (dists : List ℚ)
    (q q' : String) (k : Nat) (res : AnswerResponse)
    (hres : answer_query client fmt metas dists q k = some res) :
    res.confidence = (res.citations.map Citation.similarity).sum
        / ((max 1 res.citations.length : ℕ) : ℚ)
    ∧ Option.map AnswerResponse.confidence (answer_query client' fmt' metas dists q' k)
        = some res.confidence
    ∧ ((∀ d ∈ dists, 0 ≤ d ∧ d ≤ 2) → -1 ≤ res.confidence ∧ res.confidence ≤ 1) := by
  unfold answer_query at hres
  cases hkn : retrieve metas dists k with
  | none => rw [hkn] at hres; simp at hres
  | some results =>
    rw [hkn] at hres
    simp only [Option.map_some', Option.some_inj] at hres
    subst hres
    refine ⟨?_, ?_, ?_⟩
    · unfold avg_sim
      rw [List.map_map, List.length_map]
      have hc : (Citation.similarity ∘ fun r : ChunkMeta × ℚ =>
          ({ title := r.1.title, url := r.1.url, similarity := r.2 } : Citation))
          = fun r : ChunkMeta × ℚ => r.2 := by
        funext r
        rfl
      rw [hc]
    · unfold answer_query
      rw [hkn]
      simp
    · intro hb
      have hsim := retrieve_result_bounds metas dists k results hkn hb
      show -1 ≤ avg_sim results ∧ avg_sim results ≤ 1
      unfold avg_sim
      have hub : (results.map (fun r : ChunkMeta × ℚ => r.2)).sum
          ≤ ((results.map (fun r : ChunkMeta × ℚ => r.2)).length : ℚ) := by
        have := List.sum_le_card_nsmul (results.map (fun r : ChunkMeta × ℚ => r.2)) 1
          (fun x hx => by
            rw [List.mem_map] at hx
            obtain ⟨r, hr, rfl⟩ := hx
            exact (hsim r hr).2)
        simpa [nsmul_eq_mul] using this
      have hlb : -(((results.map (fun r : ChunkMeta × ℚ => r.2)).length : ℚ))
          ≤ (results.map (fun r : ChunkMeta × ℚ => r.2)).sum := by
        have := List.card_nsmul_le_sum (results.map (fun r : ChunkMeta × ℚ => r.2)) (-1)
          (fun x hx => by
            rw [List.mem_map] at hx
            obtain ⟨r, hr, rfl⟩ := hx
            exact (hsim r hr).1)
        simpa [nsmul_eq_mul, mul_neg_one] using this
      have hlen : (((results.map (fun r : ChunkMeta × ℚ => r.2)).length : ℕ) : ℚ)
          ≤ ((max 1 results.length : ℕ) : ℚ) := by
        rw [List.length_map]
        exact_mod_cast Nat.le_max_right 1 results.length
      have hNpos : (0 : ℚ) < ((max 1 results.length : ℕ) : ℚ) := by
        have h1 : (1 : ℕ) ≤ max 1 results.length := Nat.le_max_left _ _
        exact_mod_cast Nat.lt_of_lt_of_le Nat.zero_lt_one h1
      constructor
      · rw [le_div_iff₀ hNpos]
        linarith
      · rw [div_le_one hNpos]
        linarith

/-- Concrete response record for the C7 witness. -/
def resW : AnswerResponse :=
  { answer := "A"
    citations := [((default : ChunkMeta), (1 : ℚ) - 0)].map (fun r =>
      { title := r.1.title, url := r.1.url, similarity := r.2 })
    confidence := avg_sim [((default : ChunkMeta), (1 : ℚ) - 0)] }

/-- Witness for C7 (amended) at one chunk with cosine distance 0, with a second
client, formatter and question on the independence conjunct. -/
theorem C7_confidence_mean_witness :
    resW.confidence = (resW.citations.map Citation.similarity).sum
        / ((max 1 resW.citations.length : ℕ) : ℚ)
    ∧ Option.map AnswerResponse.confidence
        (answer_query none (fun _ => "x") [default] [(0 : ℚ)] "q2" 1) = some resW.confidence
    ∧ (-1 ≤ resW.confidence ∧ resW.confidence ≤ 1) := by
  have h := C7_confidence_mean (some (fun _ => "A")) none (fun _ => "") (fun _ => "x")
    [default] [(0 : ℚ)] "q" "q2" 1 resW rfl
  refine ⟨h.1, h.2.1, h.2.2 ?_⟩
  intro d hd
  simp only [List.mem_singleton] at hd
  subst hd
  norm_num

/-- C9: the confidence division of `answer_query` is guarded by
`max(1, len(results))`: the denominator is nonzero for every result count, the
guarded mean over zero results evaluates to 0, and whenever retrieval returns
(any result list, including the empty one) `answer_query` returns a response
whose confidence is that guarded mean — never a division by zero. -/
theorem C9_mean_division_guarded :
    (∀ results : List (ChunkMeta × ℚ), ((max 1 results.length : ℕ) : ℚ) ≠ 0)
    ∧ avg_sim [] = 0
    ∧ ∀ (client : Option (String → String)) (fmt : ℚ → String) (metas : List ChunkMeta)
        (dists : List ℚ) (q : String) (k : Nat) (results : List (ChunkMeta × ℚ)),
        retrieve metas dists k = some results →
        Option.map AnswerResponse.confidence (answer_query client fmt metas dists q k)
          = some (avg_sim results) := by
  refine ⟨?_, ?_, ?_⟩
  · intro results
    have h1 : (1 : ℕ) ≤ max 1 results.length := Nat.le_max_left _ _
    have h2 : (0 : ℚ) < ((max 1 results.length : ℕ) : ℚ) := by
      exact_mod_cast Nat.lt_of_lt_of_le Nat.zero_lt_one h1
    exact ne_of_gt h2
  · simp [avg_sim]
  · intro client fmt metas dists q k results hres
    unfold answer_query
    rw [hres]
    simp

/-- Witness for C9: the concrete empty-result denominator and mean, and one
concrete `answer_query` call whose confidence is the guarded mean. -/
theorem C9_mean_division_guarded_witness :
    ((max 1 ([] : List (ChunkMeta × ℚ)).length : ℕ) : ℚ) ≠ 0
    ∧ avg_sim [] = 0
    ∧ Option.map AnswerResponse.confidence
        (answer_query none (fun _ => "") [default] [(0 : ℚ)] "q" 1)
      = some (avg_sim [((default : ChunkMeta), (1 : ℚ) - 0)]) :=
  ⟨C9_mean_division_guarded.1 [], C9_mean_division_guarded.2.1,
   C9_mean_division_guarded.2.2 none (fun _ => "") [default] [(0 : ℚ)] "q" 1
     [((default : ChunkMeta), (1 : ℚ) - 0)] rfl⟩

/-- The whitespace test of Python `str.strip()`, for the ASCII whitespace
characters Python strips. -/
def isPyWhitespace (c : Char) : Bool :=
  c == ' ' || c == '\t' || c == '\n' || c == '\r' || c == '\x0b' || c == '\x0c'

/-- Python `str.strip()`: remove leading and trailing whitespace. -/
def pyStrip (s : String) : String :=
  String.mk (((s.data.dropWhile isPyWhitespace).reverse.dropWhile isPyWhitespace).reverse)

/-- The HTTP result produced by the `ask` handler in `app.py`. -/
inductive AskResult where
  | clientError (status : Nat) (error : String)
  | ok (resp : AnswerResponse)
  | serverError (status : Nat)
deriving Repr, DecidableEq, Inhabited

/-- The `ask` endpoint handler (`app.py`):
`q = data.get("question", "").strip()`; if `q` is falsy (the empty string),
return 400 with `{"error": "empty question"}` before any retrieval; otherwise
call `answer_query(q, top_k=4)` and return its response, or a 500 on an
exception (`str(e)` is dropped by the model).  The answerer — and thereby
retrieval, which only `answer_query` invokes — is abstracted as `answerer`;
the second component of the returned pair records whether it was invoked. -/
def ask (answerer : String → Option AnswerResponse) (question_field : Option String) :
    AskResult × Bool :=
  let q := pyStrip (question_field.getD "")
  if q = "" then (AskResult.clientError 400 "empty question", false)
  else
    match answerer q with
    | some resp => (AskResult.ok resp, true)
    | none => (AskResult.serverError 500, true)

/-- C5: for every request whose question field is empty (or missing) or
whitespace-only after trimming, the `ask` endpoint returns status 400 with
body error "empty question", and never invokes retrieval or the answerer:
the invocation flag is false and the result does not depend on the answerer. -/
theorem C5_empty_question_400 (answerer answerer' : String → Option AnswerResponse)
    (qf : Option String) (h : pyStrip (qf.getD "") = "") :
    ask answerer qf = (AskResult.clientError 400 "empty question", false)
    ∧ ask answerer qf = ask answerer' qf := by
  constructor
  · simp [ask, h]
  · simp [ask, h]

/-- Witness for C5 at a whitespace-only question and two distinct answerers. -/
theorem C5_empty_question_400_witness :
    ask (fun _ => none) (some "  \n\t ") = (AskResult.clientError 400 "empty question", false)
    ∧ ask (fun _ => none) (some "  \n\t ")
      = ask (fun q => some { answer := q, citations := [], confidence := 0 }) (some "  \n\t ") :=
  C5_empty_question_400 (fun _ => none)
    (fun q => some { answer := q, citations := [], confidence := 0 })
    (some "  \n\t ") (by decide)

/-- A successfully fetched page (`scraper.py`): the title and content that
`extract_text_from_page(html, url)` extracts, and the same-domain links that
`get_links(html, start_url)` extracts from its html (fragment-stripped,
deduplicated, `mailto:`/`javascript:` excluded).  Fetching is abstracted:
`fetch url = none` models `fetch(url)` raising after exhausting its retries,
`some page` a successful fetch.  A parse failure only skips the `docs.append`
and is not modelled separately. -/
structure Page where
  title : String
  content : String
  links : List String
deriving Repr, Inhabited

/-- The mutable state of the `scrape` crawl loop (`scraper.py`): the
`to_visit` frontier list, the `visited` set (a duplicate-free list), the
collected `docs`, and a ghost `fetched` trace recording every call of
`fetch`. -/
structure CrawlState where
  to_visit : List String
  visited : List String
  docs : List Doc
  fetched : List String
deriving Repr, Inhabited

/-- One iteration of the `while` body of `scrape` (`scraper.py`):
`url = to_visit.pop(0)`; if `url in visited`, `continue`; otherwise call
`fetch(url)` (recorded in the ghost trace) — on failure add `url` to
`visited` and `continue`; on success append the document, add `url` to
`visited`, and then append to `to_visit` every link `l` of the page with
`l not in visited and l not in to_visit` (checked against the evolving
frontier, so the appends themselves never introduce a duplicate). -/
def crawlStep (fetch : String → Option Page) (st : CrawlState) : CrawlState :=
  match st.to_visit with
  | [] => st
  | url :: rest =>
    if url ∈ st.visited then
      { st with to_visit := rest }
    else
      match fetch url with
      | none =>
        { to_visit := rest
          visited := st.visited ++ [url]
          docs := st.docs
          fetched := st.fetched ++ [url] }
      | some page =>
        { to_visit := page.links.foldl
            (fun acc l => if l ∉ st.visited ++ [url] ∧ l ∉ acc then acc ++ [l] else acc) rest
          visited := st.visited ++ [url]
          docs := st.docs ++ [{ url := url, title := page.title, content := page.content.data }]
          fetched := st.fetched ++ [url] }

theorem crawlStep_measure (fetch : String → Option Page) (st : CrawlState)
    (hne : st.to_visit ≠ []) :
    (crawlStep fetch st).visited.length = st.visited.length + 1
    ∨ ((crawlStep fetch st).visited = st.visited
        ∧ (crawlStep fetch st).to_visit.length + 1 = st.to_visit.length) := by
  rcases hts : st.to_visit with _ | ⟨url, rest⟩
  · exact absurd hts hne
  · simp only [crawlStep, hts]
    by_cases hv : url ∈ st.visited
    · right
      rw [if_pos hv]
      exact ⟨rfl, by simp⟩
    · rw [if_neg hv]
      cases fetch url with
      | none => left; simp
      | some page => left; simp

/-- The `while to_visit and len(visited) < max_pages` loop of `scrape`
(`scraper.py`); well-founded by the lexicographic measure
(page budget - visited count, frontier length). -/
def crawlLoop (fetch : String → Option Page) (max_pages : Nat) (st : CrawlState) :
    CrawlState :=
  if h : st.to_visit ≠ [] ∧ st.visited.length < max_pages then
    crawlLoop fetch max_pages (crawlStep fetch st)
  else st
termination_by (max_pages - st.visited.length, st.to_visit.length)
decreasing_by
  rcases crawlStep_measure fetch st h.1 with hgrow | ⟨heq, hlen⟩
  · apply Prod.Lex.left
    omega
  · rw [heq]
    apply Prod.Lex.right
    omega

/-- The initial loop state of `scrape(start_url, out_path, max_pages)`
(`scraper.py`): `to_visit = [start_url]`, `visited = set()`, `docs = []`,
and an empty ghost fetch trace. -/
def scrapeInit (start_url : String) : CrawlState :=
  { to_visit := [start_url], visited := [], docs := [], fetched := [] }

theorem crawlLoop_exit (fetch : String → Option Page) (max_pages : Nat) (st : CrawlState) :
    (crawlLoop fetch max_pages st).to_visit = []
    ∨ max_pages ≤ (crawlLoop fetch max_pages st).visited.length := by
  induction st using crawlLoop.induct fetch max_pages with
  | case1 st h ih =>
    rw [crawlLoop, dif_pos h]
    exact ih
  | case2 st h =>
    rw [crawlLoop, dif_neg h]
    by_cases hv : st.to_visit = []
    · exact Or.inl hv
    · right
      by_contra hlt
      push_neg at hlt
      exact h ⟨hv, hlt⟩

theorem crawlLoop_stop (fetch : String → Option Page) (max_pages : Nat) (st : CrawlState)
    (h : st.to_visit = [] ∨ max_pages ≤ st.visited.length) :
    crawlLoop fetch max_pages st = st := by
  rw [crawlLoop, dif_neg]
  rintro ⟨h1, h2⟩
  rcases h with h | h
  · exact h1 h
  · omega

theorem enqueue_foldl_mem (visited' links : List String) :
    ∀ (acc : List String) (u : String),
      u ∈ links.foldl (fun acc l => if l ∉ visited' ∧ l ∉ acc then acc ++ [l] else acc) acc →
      u ∈ acc ∨ (u ∉ visited' ∧ u ∉ acc) := by
  induction links with
  | nil =>
    intro acc u h
    exact Or.inl h
  | cons l ls ih =>
    intro acc u h
    simp only [List.foldl_cons] at h
    by_cases hc : l ∉ visited' ∧ l ∉ acc
    · rw [if_pos hc] at h
      rcases ih (acc ++ [l]) u h with h' | h'
      · rcases List.mem_append.mp h' with h'' | h''
        · exact Or.inl h''
        · have he : u = l := List.mem_singleton.mp h''
          subst he
          exact Or.inr hc
      · exact Or.inr ⟨h'.1, fun hua => h'.2 (List.mem_append.mpr (Or.inl hua))⟩
    · rw [if_neg hc] at h
      exact ih acc u h

theorem crawlStep_frontier_fresh (fetch : String → Option Page) (st : CrawlState) :
    ∀ u ∈ (crawlStep fetch st).to_visit,
      u ∈ st.to_visit ∨ (u ∉ st.to_visit ∧ u ∉ (crawlStep fetch st).visited) := by
  intro u hu
  rcases hts : st.to_visit with _ | ⟨url, rest⟩
  · simp only [crawlStep, hts] at hu
    simp at hu
  · simp only [crawlStep, hts] at hu ⊢
    by_cases hv : url ∈ st.visited
    · rw [if_pos hv] at hu ⊢
      exact Or.inl (List.mem_cons_of_mem url hu)
    · rw [if_neg hv] at hu ⊢
      revert hu
      cases fetch url with
      | none =>
        intro hu
        exact Or.inl (List.mem_cons_of_mem url hu)
      | some page =>
        intro hu
        rcases enqueue_foldl_mem (st.visited ++ [url]) page.links rest u hu with h' | h'
        · exact Or.inl (List.mem_cons_of_mem url h')
        · right
          refine ⟨?_, h'.1⟩
          intro hmem
          rcases List.mem_cons.mp hmem with he | hr
          · exact h'.1 (he ▸ List.mem_append.mpr (Or.inr (List.mem_singleton.mpr rfl)))
          · exact h'.2 hr

theorem crawlStep_fetch_inv (fetch : String → Option Page) (st : CrawlState)
    (hnodup : st.fetched.Nodup) (hsub : ∀ u ∈ st.fetched, u ∈ st.visited) :
    (crawlStep fetch st).fetched.Nodup
    ∧ ∀ u ∈ (crawlStep fetch st).fetched, u ∈ (crawlStep fetch st).visited := by
  rcases hts : st.to_visit with _ | ⟨url, rest⟩
  · simp only [crawlStep, hts]
    exact ⟨hnodup, hsub⟩
  · simp only [crawlStep, hts]
    by_cases hv : url ∈ st.visited
    · rw [if_pos hv]
      exact ⟨hnodup, hsub⟩
    · rw [if_neg hv]
      have hnf : url ∉ st.fetched := fun hc => hv (hsub url hc)
      have hnodup' : (st.fetched ++ [url]).Nodup := by
        simp [List.nodup_append, hnodup, hnf]
      have hsub' : ∀ u ∈ st.fetched ++ [url], u ∈ st.visited ++ [url] := by
        intro u hu
        rcases List.mem_append.mp hu with h' | h'
        · exact List.mem_append.mpr (Or.inl (hsub u h'))
        · exact List.mem_append.mpr (Or.inr h')
      cases fetch url with
      | none => exact ⟨hnodup', hsub'⟩
      | some page => exact ⟨hnodup', hsub'⟩

theorem crawlLoop_fetch_inv (fetch : String → Option Page) (max_pages : Nat)
    (st : CrawlState) :
    st.fetched.Nodup → (∀ u ∈ st.fetched, u ∈ st.visited) →
    (crawlLoop fetch max_pages st).fetched.Nodup
    ∧ ∀ u ∈ (crawlLoop fetch max_pages st).fetched,
        u ∈ (crawlLoop fetch max_pages st).visited := by
  induction st using crawlLoop.induct fetch max_pages with
  | case1 st h ih =>
    intro h1 h2
    rw [crawlLoop, dif_pos h]
    have hstep := crawlStep_fetch_inv fetch st h1 h2
    exact ih hstep.1 hstep.2
  | case2 st h =>
    intro h1 h2
    rw [crawlLoop, dif_neg h]
    exact ⟨h1, h2⟩

/-- C8: the crawl loop of `scrape` terminates — `crawlLoop` is well-founded by
the lexicographic measure (page budget - visited count, frontier length) —
and it ends exactly when the frontier is empty or the visited count has
reached the page budget: (i) the final state has an empty frontier or a
visited count at least the budget; (ii) when the frontier is empty or the
budget reached, the loop performs no iteration; (iii) each iteration either
grows the visited set by exactly one or leaves it unchanged and strictly
shrinks the frontier; (iv) the frontier only ever receives URLs not already
present in it or in the visited set. -/
theorem C8_crawl_loop_terminates (fetch : String → Option Page) (max_pages : Nat)
    (st : CrawlState) :
    ((crawlLoop fetch max_pages st).to_visit = []
      ∨ max_pages ≤ (crawlLoop fetch max_pages st).visited.length)
    ∧ (st.to_visit = [] ∨ max_pages ≤ st.visited.length → crawlLoop fetch max_pages st = st)
    ∧ (st.to_visit ≠ [] →
        (crawlStep fetch st).visited.length = st.visited.length + 1
        ∨ ((crawlStep fetch st).visited = st.visited
            ∧ (crawlStep fetch st).to_visit.length + 1 = st.to_visit.length))
    ∧ (∀ u ∈ (crawlStep fetch st).to_visit,
        u ∈ st.to_visit ∨ (u ∉ st.to_visit ∧ u ∉ (crawlStep fetch st).visited)) :=
  ⟨crawlLoop_exit fetch max_pages st, crawlLoop_stop fetch max_pages st,
   crawlStep_measure fetch st, crawlStep_frontier_fresh fetch st⟩

/-- Empty crawl state used by the C8 witness. -/
def stEmpty : CrawlState := { to_visit := [], visited := [], docs := [], fetched := [] }

/-- Witness for C8 at a concrete always-failing fetch oracle, budget 1. -/
theorem C8_crawl_loop_terminates_witness :
    ((crawlLoop (fun _ => none) 1 (scrapeInit "a")).to_visit = []
      ∨ 1 ≤ (crawlLoop (fun _ => none) 1 (scrapeInit "a")).visited.length)
    ∧ crawlLoop (fun _ => none) 1 stEmpty = stEmpty
    ∧ ((crawlStep (fun _ => none) (scrapeInit "a")).visited.length
          = (scrapeInit "a").visited.length + 1
        ∨ ((crawlStep (fun _ => none) (scrapeInit "a")).visited = (scrapeInit "a").visited
            ∧ (crawlStep (fun _ => none) (scrapeInit "a")).to_visit.length + 1
                = (scrapeInit "a").to_visit.length)) :=
  ⟨(C8_crawl_loop_terminates (fun _ => none) 1 (scrapeInit "a")).1,
   (C8_crawl_loop_terminates (fun _ => none) 1 stEmpty).2.1 (Or.inl rfl),
   (C8_crawl_loop_terminates (fun _ => none) 1 (scrapeInit "a")).2.2.1 (by decide)⟩

/-- C10: during a single crawl run every URL is fetched at most once: the
ghost trace of `fetch` calls over the whole loop, started from `scrape`'s
initial state, has no duplicates; every fetched URL is in the final visited
set (a URL is added to `visited` in the same iteration as its fetch, before
its links are enqueued); and a popped URL that is already in the visited set
is skipped — the step only removes it from the frontier, fetching nothing. -/
theorem C10_fetch_at_most_once (fetch : String → Option Page) (max_pages : Nat)
    (start_url : String) :
    (crawlLoop fetch max_pages (scrapeInit start_url)).fetched.Nodup
    ∧ (∀ u ∈ (crawlLoop fetch max_pages (scrapeInit start_url)).fetched,
        u ∈ (crawlLoop fetch max_pages (scrapeInit start_url)).visited)
    ∧ ∀ (st : CrawlState) (url : String) (rest : List String),
        st.to_visit = url :: rest → url ∈ st.visited →
        crawlStep fetch st = { st with to_visit := rest } := by
  have hinv := crawlLoop_fetch_inv fetch max_pages (scrapeInit start_url)
    (by simp [scrapeInit]) (by simp [scrapeInit])
  refine ⟨hinv.1, hinv.2, ?_⟩
  intro st url rest hts hv
  simp only [crawlStep, hts]
  rw [if_pos hv]

/-- Crawl state with the head of the frontier already visited, for the C10
witness. -/
def stVisited : CrawlState :=
  { to_visit := ["a"], visited := ["a"], docs := [], fetched := [] }

/-- Witness for C10: concrete crawl with budget 2, and a concrete skipped
re-popped URL. -/
theorem C10_fetch_at_most_once_witness :
    (crawlLoop (fun _ => none) 2 (scrapeInit "a")).fetched.Nodup
    ∧ crawlStep (fun _ => none) stVisited = { stVisited with to_visit := [] } :=
  ⟨(C10_fetch_at_most_once (fun _ => none) 2 "a").1,
   (C10_fetch_at_most_once (fun _ => none) 2 "a").2.2 stVisited "a" [] rfl (by decide)⟩
